import Mathlib

/-!
Verification of the distributed equi-join repository (helpers.cpp, main.cpp).

The development shallowly embeds the C++ sources:

* Partition geometry (`get_start`, `get_end`, `get_node_portion` in
  helpers.cpp) computes `div_chunk = (int64_t)ceil(total / (double)num_pes)`.
  The double-precision arithmetic is modelled exactly: `rnd` is
  round-to-nearest-even at 53 significant bits over the rationals, which is
  the value semantics of IEEE-754 binary64 for the magnitudes that occur here
  (no overflow, no subnormals).  Machine integers are modelled as `Nat`/`Int`;
  all quantities stay far below the `int64_t` range in every statement proved.
* The join (`local_join_impl`, `parallel_join_impl` in main.cpp) works on
  parallel arrays, modelled as Lean lists.  `payload_a` values of type
  `double` are only ever copied, never computed with, so they are carried as
  rationals.  The C++ code indexes `data0[index]`/`data1[index]` without any
  bounds check; an out-of-bounds access is undefined behaviour and is
  modelled by an `Option` result (`none` marks the undefined access).
* `generate_example_inputs` (helpers.cpp) slices the fixed global arrays of
  the worked example into per-rank chunks using the partition geometry.
-/

/-- Fuel-driven base-2 logarithm on naturals: `log2fuel fuel n` is the number
of halving steps needed to bring `n` to `1` or below, provided `fuel` bounds
the argument.  Structural recursion on the fuel keeps it kernel-friendly. -/
def log2fuel : Nat → Nat → Nat
  | 0, _ => 0
  | fuel + 1, n => if n ≤ 1 then 0 else log2fuel fuel (n / 2) + 1

/-- Base-2 logarithm of a natural number (floor), via `log2fuel`. -/
def natLog2 (n : Nat) : Nat := log2fuel n n

theorem log2fuel_spec : ∀ fuel n, 1 ≤ n → n ≤ fuel →
    2 ^ log2fuel fuel n ≤ n ∧ n < 2 ^ (log2fuel fuel n + 1) := by
  intro fuel
  induction fuel with
  | zero => intro n h1 h2; omega
  | succ fuel ih =>
    intro n h1 h2
    by_cases hn : n ≤ 1
    · have hone : n = 1 := by omega
      subst hone
      simp [log2fuel]
    · have h1h : 1 ≤ n / 2 := by omega
      have h2h : n / 2 ≤ fuel := by omega
      obtain ⟨ha, hb⟩ := ih (n / 2) h1h h2h
      have hunf : log2fuel (fuel + 1) n = log2fuel fuel (n / 2) + 1 := by
        simp [log2fuel, hn]
      rw [hunf]
      constructor
      · rw [pow_succ]
        omega
      · rw [pow_succ]
        omega

theorem natLog2_spec (n : Nat) (h : 1 ≤ n) :
    2 ^ natLog2 n ≤ n ∧ n < 2 ^ (natLog2 n + 1) :=
  log2fuel_spec n n h le_rfl

/-- Binary exponent of a rational: for `0 < q` it is the unique `e` with
`2 ^ e ≤ q < 2 ^ (e + 1)`.  Computed from the base-2 logarithms of the
numerator and denominator, with a one-step correction. -/
def qExp (q : ℚ) : ℤ :=
  let e0 : ℤ := (natLog2 q.num.toNat : ℤ) - (natLog2 q.den : ℤ)
  if (2 : ℚ) ^ e0 ≤ q then e0 else e0 - 1

theorem zpow_nat_succ (k : ℕ) : (2 : ℚ) ^ ((k : ℤ) + 1) = 2 ^ (k + 1 : ℕ) := by
  rw [← zpow_natCast (2 : ℚ) (k + 1)]
  congr 1

theorem qExp_spec (q : ℚ) (hq : 0 < q) :
    (2 : ℚ) ^ qExp q ≤ q ∧ q < 2 ^ (qExp q + 1) := by
  have hnum : 0 < q.num := Rat.num_pos.mpr hq
  have hnum1 : 1 ≤ q.num.toNat := by omega
  have hden1 : 1 ≤ q.den := q.pos
  obtain ⟨ha1, ha2⟩ := natLog2_spec q.num.toNat hnum1
  obtain ⟨hb1, hb2⟩ := natLog2_spec q.den hden1
  set a := natLog2 q.num.toNat with hadef
  set b := natLog2 q.den with hbdef
  have hde : (0 : ℚ) < (q.den : ℚ) := by exact_mod_cast hden1
  have hnq : ((q.num.toNat : ℚ)) = (q.num : ℚ) := by
    have : (q.num.toNat : ℤ) = q.num := Int.toNat_of_nonneg (le_of_lt hnum)
    exact_mod_cast this
  have hqeq : q = (q.num : ℚ) / (q.den : ℚ) := (Rat.num_div_den q).symm
  -- upper bound: q < 2 ^ ((a - b : ℤ) + 1)
  have hupper : q < 2 ^ ((a : ℤ) - (b : ℤ) + 1) := by
    rw [hqeq, div_lt_iff₀ hde]
    have h2b : (2 : ℚ) ^ ((b : ℤ)) ≤ (q.den : ℚ) := by
      rw [zpow_natCast]
      exact_mod_cast hb1
    have hna : (q.num : ℚ) < 2 ^ ((a : ℤ) + 1) := by
      rw [← hnq, zpow_nat_succ]
      exact_mod_cast ha2
    have hsplit : (2 : ℚ) ^ ((a : ℤ) + 1) = 2 ^ ((a : ℤ) - (b : ℤ) + 1) * 2 ^ ((b : ℤ)) := by
      rw [← zpow_add₀ (by norm_num : (2 : ℚ) ≠ 0)]
      ring_nf
    calc (q.num : ℚ) < 2 ^ ((a : ℤ) + 1) := hna
      _ = 2 ^ ((a : ℤ) - (b : ℤ) + 1) * 2 ^ ((b : ℤ)) := hsplit
      _ ≤ 2 ^ ((a : ℤ) - (b : ℤ) + 1) * (q.den : ℚ) := by
          exact mul_le_mul_of_nonneg_left h2b (le_of_lt (by positivity))
  -- lower bound: 2 ^ ((a - b : ℤ) - 1) < q
  have hlower : (2 : ℚ) ^ ((a : ℤ) - (b : ℤ) - 1) < q := by
    rw [hqeq, lt_div_iff₀ hde]
    have h2b : (q.den : ℚ) < 2 ^ ((b : ℤ) + 1) := by
      rw [zpow_nat_succ]
      exact_mod_cast hb2
    have hna : (2 : ℚ) ^ ((a : ℤ)) ≤ (q.num : ℚ) := by
      rw [← hnq, zpow_natCast]
      exact_mod_cast ha1
    have hsplit : (2 : ℚ) ^ ((a : ℤ) - (b : ℤ) - 1) * 2 ^ ((b : ℤ) + 1) = 2 ^ ((a : ℤ)) := by
      rw [← zpow_add₀ (by norm_num : (2 : ℚ) ≠ 0)]
      ring_nf
    calc (2 : ℚ) ^ ((a : ℤ) - (b : ℤ) - 1) * (q.den : ℚ)
        < 2 ^ ((a : ℤ) - (b : ℤ) - 1) * 2 ^ ((b : ℤ) + 1) := by
          exact mul_lt_mul_of_pos_left h2b (by positivity)
      _ = 2 ^ ((a : ℤ)) := hsplit
      _ ≤ (q.num : ℚ) := hna
  rw [qExp]
  by_cases hif : (2 : ℚ) ^ ((a : ℤ) - (b : ℤ)) ≤ q
  · simp only [← hadef, ← hbdef, if_pos hif]
    exact ⟨hif, hupper⟩
  · simp only [← hadef, ← hbdef, if_neg hif]
    constructor
    · exact le_of_lt hlower
    · have : (a : ℤ) - (b : ℤ) - 1 + 1 = (a : ℤ) - (b : ℤ) := by ring
      rw [this]
      exact lt_of_not_le hif

theorem qExp_unique (q : ℚ) (e : ℤ) (hq : 0 < q)
    (h1 : (2 : ℚ) ^ e ≤ q) (h2 : q < 2 ^ (e + 1)) : qExp q = e := by
  obtain ⟨hs1, hs2⟩ := qExp_spec q hq
  have hlt1 : (2 : ℚ) ^ qExp q < 2 ^ (e + 1) := lt_of_le_of_lt hs1 h2
  have hlt2 : (2 : ℚ) ^ e < 2 ^ (qExp q + 1) := lt_of_le_of_lt h1 hs2
  have he1 : qExp q < e + 1 := by
    by_contra hcon
    push_neg at hcon
    exact absurd (zpow_le_zpow_right₀ (by norm_num : (1 : ℚ) ≤ 2) hcon) (not_le_of_lt hlt1)
  have he2 : e < qExp q + 1 := by
    by_contra hcon
    push_neg at hcon
    exact absurd (zpow_le_zpow_right₀ (by norm_num : (1 : ℚ) ≤ 2) hcon) (not_le_of_lt hlt2)
  omega

/-- Round a rational to the nearest integer, ties to even: the rounding rule
of IEEE-754 round-to-nearest-even, applied at integer granularity. -/
def rhe (x : ℚ) : ℤ :=
  let n := ⌊x⌋
  let f := x - n
  if f < 1 / 2 then n
  else if 1 / 2 < f then n + 1
  else if 2 ∣ n then n else n + 1

theorem rhe_ge (x : ℚ) : x - 1 / 2 ≤ (rhe x : ℚ) := by
  have h1 : (⌊x⌋ : ℚ) ≤ x := Int.floor_le x
  have h2 : x < ⌊x⌋ + 1 := Int.lt_floor_add_one x
  rw [rhe]
  by_cases hf1 : x - (⌊x⌋ : ℚ) < 1 / 2
  · simp only [if_pos hf1]
    linarith
  · by_cases hf2 : (1 : ℚ) / 2 < x - (⌊x⌋ : ℚ)
    · simp only [if_neg hf1, if_pos hf2]
      push_cast
      linarith
    · simp only [if_neg hf1, if_neg hf2]
      by_cases hev : 2 ∣ ⌊x⌋
      · simp only [if_pos hev]
        linarith [le_of_not_lt hf2]
      · simp only [if_neg hev]
        push_cast
        linarith

theorem rhe_le (x : ℚ) : (rhe x : ℚ) ≤ x + 1 / 2 := by
  have h1 : (⌊x⌋ : ℚ) ≤ x := Int.floor_le x
  have h2 : x < ⌊x⌋ + 1 := Int.lt_floor_add_one x
  rw [rhe]
  by_cases hf1 : x - (⌊x⌋ : ℚ) < 1 / 2
  · simp only [if_pos hf1]
    linarith
  · by_cases hf2 : (1 : ℚ) / 2 < x - (⌊x⌋ : ℚ)
    · simp only [if_neg hf1, if_pos hf2]
      push_cast
      linarith [le_of_not_lt hf1]
    · simp only [if_neg hf1, if_neg hf2]
      have hhalf : x - (⌊x⌋ : ℚ) = 1 / 2 := le_antisymm (le_of_not_lt hf2) (le_of_not_lt hf1)
      by_cases hev : 2 ∣ ⌊x⌋
      · simp only [if_pos hev]
        linarith
      · simp only [if_neg hev]
        push_cast
        linarith

theorem rhe_intCast (k : ℤ) : rhe (k : ℚ) = k := by
  rw [rhe]
  norm_num

/-- Round-to-nearest-even at 53 significant bits: the value an IEEE-754
binary64 register holds after storing the real number `q`.  Models the
conversions and arithmetic rounding in `(int64_t)ceil(total / (double)num_pes)`
for the nonnegative magnitudes that occur there (no overflow/subnormals). -/
def rnd (q : ℚ) : ℚ :=
  if q = 0 then 0 else (rhe (q / 2 ^ (qExp q - 52)) : ℚ) * 2 ^ (qExp q - 52)

theorem two_zpow_split (e : ℤ) : (2 : ℚ) ^ e = 2 * 2 ^ (e - 1) := by
  rw [mul_comm, ← zpow_add_one₀ (by norm_num : (2 : ℚ) ≠ 0) (e - 1)]
  have h : e - 1 + 1 = e := by ring
  rw [h]

theorem rnd_lower (q : ℚ) (hq : 0 < q) : q - 2 ^ (qExp q - 53) ≤ rnd q := by
  rw [rnd, if_neg (ne_of_gt hq)]
  have hu : (0 : ℚ) < 2 ^ (qExp q - 52) := by positivity
  have hb := rhe_ge (q / 2 ^ (qExp q - 52))
  have hmul := mul_le_mul_of_nonneg_right hb (le_of_lt hu)
  have hexp : (2 : ℚ) ^ (qExp q - 52) = 2 * 2 ^ (qExp q - 53) := by
    have h := two_zpow_split (qExp q - 52)
    rw [show qExp q - 52 - 1 = qExp q - 53 from by ring] at h
    exact h
  calc q - 2 ^ (qExp q - 53)
      = (q / 2 ^ (qExp q - 52) - 1 / 2) * 2 ^ (qExp q - 52) := by
        field_simp
        rw [hexp]
        ring
    _ ≤ (rhe (q / 2 ^ (qExp q - 52)) : ℚ) * 2 ^ (qExp q - 52) := hmul

theorem rnd_upper (q : ℚ) (hq : 0 < q) : rnd q ≤ q + 2 ^ (qExp q - 53) := by
  rw [rnd, if_neg (ne_of_gt hq)]
  have hu : (0 : ℚ) < 2 ^ (qExp q - 52) := by positivity
  have hb := rhe_le (q / 2 ^ (qExp q - 52))
  have hmul := mul_le_mul_of_nonneg_right hb (le_of_lt hu)
  have hexp : (2 : ℚ) ^ (qExp q - 52) = 2 * 2 ^ (qExp q - 53) := by
    have h := two_zpow_split (qExp q - 52)
    rw [show qExp q - 52 - 1 = qExp q - 53 from by ring] at h
    exact h
  calc (rhe (q / 2 ^ (qExp q - 52)) : ℚ) * 2 ^ (qExp q - 52)
      ≤ (q / 2 ^ (qExp q - 52) + 1 / 2) * 2 ^ (qExp q - 52) := hmul
    _ = q + 2 ^ (qExp q - 53) := by
        field_simp
        rw [hexp]
        ring

theorem zpow_sub_53_le (q : ℚ) (hq : 0 < q) : (2 : ℚ) ^ (qExp q - 53) ≤ q / 2 ^ (53 : ℤ) := by
  have h1 := (qExp_spec q hq).1
  have hpos : (0 : ℚ) < 2 ^ (53 : ℤ) := by positivity
  rw [le_div_iff₀ hpos, ← zpow_add₀ (by norm_num : (2 : ℚ) ≠ 0)]
  have : qExp q - 53 + 53 = qExp q := by ring
  rw [this]
  exact h1

theorem rnd_pos (q : ℚ) (hq : 0 < q) : 0 < rnd q := by
  have hl := rnd_lower q hq
  have hle := zpow_sub_53_le q hq
  have hlt : q / 2 ^ (53 : ℤ) < q := by
    have h53 : (1 : ℚ) < 2 ^ (53 : ℤ) := by norm_num
    calc q / 2 ^ (53 : ℤ) < q / 1 := by
          exact div_lt_div_of_pos_left hq (by norm_num) h53
      _ = q := div_one q
  linarith

theorem rnd_eq_self (q : ℚ) (m : ℤ) (hm : q = (m : ℚ) * 2 ^ (qExp q - 52)) : rnd q = q := by
  by_cases h0 : q = 0
  · rw [rnd, if_pos h0, h0]
  · rw [rnd, if_neg h0]
    have hu : (2 : ℚ) ^ (qExp q - 52) ≠ 0 := by positivity
    have hdiv : q / 2 ^ (qExp q - 52) = (m : ℚ) := (div_eq_iff hu).mpr hm
    rw [hdiv, rhe_intCast, ← hm]

theorem rnd_two_zpow (e : ℤ) : rnd ((2 : ℚ) ^ e) = 2 ^ e := by
  have hq : (0 : ℚ) < 2 ^ e := by positivity
  have hexp : qExp ((2 : ℚ) ^ e) = e := by
    apply qExp_unique _ _ hq le_rfl
    have : (2 : ℚ) ^ e < 2 ^ e * 2 := by nlinarith
    calc (2 : ℚ) ^ e < 2 ^ e * 2 := this
      _ = 2 ^ (e + 1) := by rw [zpow_add_one₀ (by norm_num : (2 : ℚ) ≠ 0)]
  apply rnd_eq_self _ (2 ^ 52)
  have hc : ((2 ^ 52 : ℤ) : ℚ) = 2 ^ (52 : ℤ) := by norm_num
  rw [hexp, hc, ← zpow_add₀ (by norm_num : (2 : ℚ) ≠ 0)]
  congr 1
  ring

theorem rnd_natCast (n : ℕ) (h : n ≤ 2 ^ 53) : rnd (n : ℚ) = n := by
  by_cases h0 : n = 0
  · subst h0
    simp [rnd]
  · have hn1 : 1 ≤ n := by omega
    have hq : (0 : ℚ) < n := by exact_mod_cast hn1
    have hspec := qExp_spec (n : ℚ) hq
    have he53 : qExp (n : ℚ) ≤ 53 := by
      by_contra hcon
      push_neg at hcon
      have h54 : (54 : ℤ) ≤ qExp (n : ℚ) := by omega
      have : (2 : ℚ) ^ (54 : ℤ) ≤ 2 ^ qExp (n : ℚ) :=
        zpow_le_zpow_right₀ (by norm_num : (1 : ℚ) ≤ 2) h54
      have hle : (2 : ℚ) ^ (54 : ℤ) ≤ (n : ℚ) := le_trans this hspec.1
      have hcap : (n : ℚ) ≤ 2 ^ (53 : ℤ) := by
        have : ((n : ℚ)) ≤ ((2 ^ 53 : ℕ) : ℚ) := by exact_mod_cast h
        calc (n : ℚ) ≤ ((2 ^ 53 : ℕ) : ℚ) := this
          _ = 2 ^ (53 : ℤ) := by norm_num
      have : (2 : ℚ) ^ (54 : ℤ) ≤ 2 ^ (53 : ℤ) := le_trans hle hcap
      norm_num at this
    by_cases he52 : qExp (n : ℚ) ≤ 52
    · apply rnd_eq_self _ ((n : ℤ) * 2 ^ (52 - qExp (n : ℚ)).toNat)
      have htn : ((52 - qExp (n : ℚ)).toNat : ℤ) = 52 - qExp (n : ℚ) := by
        rw [Int.toNat_of_nonneg]
        omega
      push_cast
      rw [← zpow_natCast (2 : ℚ) ((52 - qExp (n : ℚ)).toNat), htn,
        mul_assoc, ← zpow_add₀ (by norm_num : (2 : ℚ) ≠ 0)]
      have : 52 - qExp (n : ℚ) + (qExp (n : ℚ) - 52) = 0 := by ring
      rw [this]
      norm_num
    · have he : qExp (n : ℚ) = 53 := by omega
      have hval : (n : ℚ) = 2 ^ (53 : ℤ) := by
        have hge : (2 : ℚ) ^ (53 : ℤ) ≤ (n : ℚ) := by
          rw [← he]
          exact hspec.1
        have hle : (n : ℚ) ≤ 2 ^ (53 : ℤ) := by
          have : ((n : ℚ)) ≤ ((2 ^ 53 : ℕ) : ℚ) := by exact_mod_cast h
          calc (n : ℚ) ≤ ((2 ^ 53 : ℕ) : ℚ) := this
            _ = 2 ^ (53 : ℤ) := by norm_num
        linarith
      rw [hval]
      exact rnd_two_zpow 53

theorem rnd_zero : rnd 0 = 0 := by
  simp [rnd]

theorem ceil_rnd_div (total P : ℕ) (h1 : 1 ≤ total) (hT : total ≤ 2 ^ 53) (hP : 1 ≤ P) :
    ⌈rnd ((total : ℚ) / P)⌉ = ⌈(total : ℚ) / P⌉ := by
  have hP0 : (0 : ℚ) < P := by exact_mod_cast hP
  have ht0 : (0 : ℚ) < total := by exact_mod_cast h1
  set q : ℚ := (total : ℚ) / P with hqdef
  have hq : 0 < q := div_pos ht0 hP0
  have hp53 : (0 : ℚ) < 2 ^ (53 : ℤ) := by positivity
  have htotle : (total : ℚ) ≤ 2 ^ (53 : ℤ) := by
    have h := hT
    have hc : ((total : ℕ) : ℚ) ≤ ((2 ^ 53 : ℕ) : ℚ) := by exact_mod_cast h
    calc (total : ℚ) ≤ ((2 ^ 53 : ℕ) : ℚ) := hc
      _ = 2 ^ (53 : ℤ) := by norm_num
  have hC : q / 2 ^ (53 : ℤ) ≤ 1 / P := by
    rw [hqdef, div_div, div_le_div_iff₀ (by positivity) hP0]
    nlinarith
  have hB := zpow_sub_53_le q hq
  have hkey : (2 : ℚ) ^ (qExp q - 53) ≤ 1 / P := le_trans hB hC
  by_cases hdvd : P ∣ total
  · have hcast : ((total / P : ℕ) : ℚ) = q := Nat.cast_div hdvd (ne_of_gt hP0)
    have hle : total / P ≤ 2 ^ 53 := le_trans (Nat.div_le_self _ _) hT
    have hrq : rnd q = q := by
      rw [← hcast]
      exact rnd_natCast _ hle
    rw [hrq]
  · set m : ℕ := total / P with hmdef
    set s : ℕ := total % P with hsdef
    have hs1 : 1 ≤ s := by
      rcases Nat.eq_zero_or_pos s with h | h
      · exact absurd (Nat.dvd_of_mod_eq_zero h) hdvd
      · exact h
    have hs2 : s < P := Nat.mod_lt _ (by omega)
    have hdm : P * m + s = total := Nat.div_add_mod total P
    have htc : (total : ℚ) = (P : ℚ) * m + s := by exact_mod_cast hdm.symm
    have hqm : q = (m : ℚ) + (s : ℚ) / P := by
      rw [hqdef, htc]
      field_simp
      ring
    have hsP0 : (0 : ℚ) < (s : ℚ) / P := by
      apply div_pos _ hP0
      exact_mod_cast hs1
    have hsP1 : (s : ℚ) / P < 1 := by
      rw [div_lt_one hP0]
      exact_mod_cast hs2
    have hceilq : ⌈q⌉ = (m : ℤ) + 1 := by
      rw [Int.ceil_eq_iff]
      constructor
      · push_cast
        rw [hqm]
        linarith
      · push_cast
        rw [hqm]
        linarith
    have hup : rnd q ≤ (m : ℚ) + 1 := by
      have hu := rnd_upper q hq
      have hs1P : ((s : ℚ) + 1) / P ≤ 1 := by
        rw [div_le_one hP0]
        exact_mod_cast Nat.succ_le_of_lt hs2
      have hsum : (s : ℚ) / P + 1 / P = ((s : ℚ) + 1) / P := by ring
      have : q + 2 ^ (qExp q - 53) ≤ (m : ℚ) + 1 := by
        linarith
      linarith
    have hD : (1 : ℚ) / P ≤ (s : ℚ) / P := by
      gcongr
      exact_mod_cast hs1
    have hlo : (m : ℚ) < rnd q := by
      by_contra hcon
      push_neg at hcon
      have hA := rnd_lower q hq
      have hE : (s : ℚ) / P = q - m := by
        rw [hqm]
        ring
      have heq : q / 2 ^ (53 : ℤ) = 2 ^ (qExp q - 53) := by linarith
      have hq2e : q = 2 ^ qExp q := by
        have hmul : q = 2 ^ (qExp q - 53) * 2 ^ (53 : ℤ) :=
          (div_eq_iff (ne_of_gt hp53)).mp heq
        have hz : (2 : ℚ) ^ (qExp q - 53) * 2 ^ (53 : ℤ) = 2 ^ qExp q := by
          rw [← zpow_add₀ (by norm_num : (2 : ℚ) ≠ 0)]
          congr 1
          ring
        rw [hz] at hmul
        exact hmul
      have hrnd : rnd q = q := by
        rw [hq2e]
        exact rnd_two_zpow _
      rw [hrnd, hqm] at hcon
      linarith
    rw [hceilq, Int.ceil_eq_iff]
    constructor
    · push_cast
      linarith
    · push_cast
      linarith

/-- Models the chunk size computed identically inside `get_start` and
`get_end` in helpers.cpp: `(int64_t)ceil(total / ((double)num_pes))`.  The
`int64_t` operand is converted to `double` (`rnd total`), the rank count cast
to `double` is `rnd P`, the division result is again correctly rounded, and
`ceil` on a double is exact. -/
def div_chunk (total P : ℕ) : ℤ := ⌈rnd (rnd total / rnd P)⌉

/-- Model of `get_start` from helpers.cpp:
`start = std::min(total, node_id * div_chunk)`. -/
def get_start (total P r : ℕ) : ℤ := min (total : ℤ) (r * div_chunk total P)

/-- Model of `get_end` from helpers.cpp:
`end = std::min(total, (node_id + 1) * div_chunk)`. -/
def get_end (total P r : ℕ) : ℤ := min (total : ℤ) ((r + 1) * div_chunk total P)

/-- Model of `get_node_portion` from helpers.cpp: `end - start`. -/
def get_node_portion (total P r : ℕ) : ℤ := get_end total P r - get_start total P r

/-- Exact integer ceiling division, following the words of the spec contract
(the quantity written as the ceiling of `total / P`). -/
def spec_ceil_div (a b : ℕ) : ℕ := (a + b - 1) / b

/-- Spec-side start index: `min(total, r * (ceiling of total / P))`, from the
spec sentence stating the Partition Geometry contract. -/
def get_start_spec (total P r : ℕ) : ℤ := min (total : ℤ) (r * spec_ceil_div total P)

/-- Spec-side end index: `min(total, (r + 1) * (ceiling of total / P))`. -/
def get_end_spec (total P r : ℕ) : ℤ := min (total : ℤ) ((r + 1) * spec_ceil_div total P)

/-- Spec-side portion: `end - start`. -/
def get_node_portion_spec (total P r : ℕ) : ℤ :=
  get_end_spec total P r - get_start_spec total P r

theorem div_chunk_eq_exact (total P : ℕ) (hT : total ≤ 2 ^ 53) (hP : 1 ≤ P)
    (hP2 : P ≤ 2 ^ 53) : div_chunk total P = ⌈(total : ℚ) / P⌉ := by
  rw [div_chunk, rnd_natCast total hT, rnd_natCast P hP2]
  by_cases h0 : total = 0
  · subst h0
    norm_num [rnd_zero]
  · exact ceil_rnd_div total P (by omega) hT hP

theorem div_chunk_pos (total P : ℕ) (h1 : 1 ≤ total) (hP : 1 ≤ P) :
    1 ≤ div_chunk total P := by
  rw [div_chunk]
  have ht : (0 : ℚ) < rnd total := rnd_pos _ (by exact_mod_cast h1)
  have hp : (0 : ℚ) < rnd P := rnd_pos _ (by exact_mod_cast hP)
  have hq : (0 : ℚ) < rnd total / rnd P := div_pos ht hp
  have h := Int.ceil_pos.mpr (rnd_pos _ hq)
  omega

theorem div_chunk_nonneg (total P : ℕ) (hP : 1 ≤ P) : 0 ≤ div_chunk total P := by
  by_cases h0 : total = 0
  · subst h0
    rw [div_chunk]
    norm_num [rnd_zero]
  · linarith [div_chunk_pos total P (by omega) hP]

theorem div_chunk_cover (total P : ℕ) (hT : total ≤ 2 ^ 53) (hP : 1 ≤ P) :
    (total : ℤ) ≤ P * div_chunk total P := by
  by_cases h0 : total = 0
  · subst h0
    have := div_chunk_nonneg 0 P hP
    have hPz : (0 : ℤ) ≤ P := by positivity
    simpa using mul_nonneg hPz this
  · by_cases hPt : P ≤ total
    · have hP2 : P ≤ 2 ^ 53 := le_trans hPt hT
      rw [div_chunk_eq_exact total P hT hP hP2]
      have hP0 : (0 : ℚ) < P := by exact_mod_cast hP
      have hceil : (total : ℚ) / P ≤ (⌈(total : ℚ) / P⌉ : ℚ) := Int.le_ceil _
      have hQ : (total : ℚ) ≤ (P : ℚ) * (⌈(total : ℚ) / P⌉ : ℚ) := by
        have := (div_le_iff₀ hP0).mp hceil
        linarith
      exact_mod_cast hQ
    · push_neg at hPt
      have hc := div_chunk_pos total P (by omega) hP
      have hPz : (0 : ℤ) < P := by exact_mod_cast hP
      have htP : (total : ℤ) < P := by exact_mod_cast hPt
      nlinarith

theorem spec_ceil_div_eq (total P : ℕ) (hP : 1 ≤ P) :
    ⌈(total : ℚ) / P⌉ = (spec_ceil_div total P : ℤ) := by
  have hP0 : (0 : ℚ) < P := by exact_mod_cast hP
  set A : ℕ := total + P - 1 with hAdef
  have hA1 : A + 1 = total + P := by omega
  have hmod := Nat.div_add_mod A P
  have hltn : A % P < P := Nat.mod_lt _ (by omega)
  have hAQ : (A : ℚ) + 1 = (total : ℚ) + P := by exact_mod_cast hA1
  have hmodQ : (P : ℚ) * ((A / P : ℕ) : ℚ) + ((A % P : ℕ) : ℚ) = (A : ℚ) := by
    exact_mod_cast hmod
  have hltQ : ((A % P : ℕ) : ℚ) < P := by exact_mod_cast hltn
  have hge0 : (0 : ℚ) ≤ ((A % P : ℕ) : ℚ) := by positivity
  have hsd : ((spec_ceil_div total P : ℕ) : ℚ) = ((A / P : ℕ) : ℚ) := by
    rw [spec_ceil_div, ← hAdef]
  have hXn : total ≤ P * (A / P) := by
    have hY1 : A % P + 1 ≤ P := hltn
    linarith [hmod, hA1]
  have hX : (total : ℚ) ≤ (P : ℚ) * ((A / P : ℕ) : ℚ) := by exact_mod_cast hXn
  have hYn : P * (A / P) < total + P := by linarith [hmod, hA1, Nat.zero_le (A % P)]
  have hY : (P : ℚ) * ((A / P : ℕ) : ℚ) < (total : ℚ) + P := by exact_mod_cast hYn
  rw [Int.ceil_eq_iff]
  constructor
  · rw [lt_div_iff₀ hP0]
    push_cast
    rw [hsd]
    linarith
  · rw [div_le_iff₀ hP0]
    push_cast
    rw [hsd]
    linarith

theorem rhe_small_frac (x : ℚ) (n : ℤ) (hfl : ⌊x⌋ = n) (hf : x - n < 1 / 2) : rhe x = n := by
  rw [rhe, hfl, if_pos hf]

theorem qExp_pow55_succ : qExp ((2 : ℚ) ^ (55 : ℕ) + 1) = 55 := by
  apply qExp_unique _ _ (by positivity)
  · norm_num
  · norm_num

theorem rnd_pow55_succ : rnd ((2 : ℚ) ^ (55 : ℕ) + 1) = 2 ^ (55 : ℕ) := by
  have hq : (0 : ℚ) < 2 ^ (55 : ℕ) + 1 := by positivity
  rw [rnd, if_neg (ne_of_gt hq), qExp_pow55_succ]
  have he : (2 : ℚ) ^ ((55 : ℤ) - 52) = 8 := by norm_num
  rw [he]
  have hdiv : ((2 : ℚ) ^ (55 : ℕ) + 1) / 8 = 2 ^ (52 : ℕ) + 1 / 8 := by norm_num
  rw [hdiv]
  have hfl : ⌊(2 : ℚ) ^ (52 : ℕ) + 1 / 8⌋ = (2 ^ 52 : ℤ) := by
    rw [Int.floor_eq_iff]
    constructor
    · push_cast
      norm_num
    · push_cast
      norm_num
  have hrhe : rhe ((2 : ℚ) ^ (52 : ℕ) + 1 / 8) = (2 ^ 52 : ℤ) := by
    apply rhe_small_frac _ _ hfl
    push_cast
    norm_num
  rw [hrhe]
  push_cast
  norm_num

theorem rnd_pow55 : rnd ((2 : ℚ) ^ (55 : ℕ)) = 2 ^ (55 : ℕ) := by
  have h := rnd_two_zpow (55 : ℤ)
  have hc : (2 : ℚ) ^ (55 : ℤ) = 2 ^ (55 : ℕ) := by norm_num
  rw [hc] at h
  exact h

theorem div_chunk_pow55_succ : div_chunk (2 ^ 55 + 1) 1 = 2 ^ 55 := by
  rw [div_chunk]
  have hc : (((2 ^ 55 + 1 : ℕ)) : ℚ) = 2 ^ (55 : ℕ) + 1 := by push_cast; norm_num
  have h1 : rnd ((1 : ℕ) : ℚ) = ((1 : ℕ) : ℚ) := rnd_natCast 1 (by norm_num)
  rw [hc, rnd_pow55_succ, h1]
  rw [show ((1 : ℕ) : ℚ) = 1 from by norm_num, div_one, rnd_pow55]
  rw [show (2 : ℚ) ^ (55 : ℕ) = (((2 ^ 55 : ℤ)) : ℚ) from by push_cast; norm_num]
  rw [Int.ceil_intCast]

theorem get_end_pow55 : get_end (2 ^ 55 + 1) 1 0 = 2 ^ 55 := by
  rw [get_end, div_chunk_pow55_succ]
  have h0 : (((0 : ℕ) : ℤ) + 1) * 2 ^ 55 = 2 ^ 55 := by norm_num
  rw [h0]
  apply min_eq_right
  push_cast

/-- Claim C4 (amended: restricted to `total` at most `2 ^ 53`, the range in
which the double-precision ceiling inside `get_start`/`get_end` is exact):
for every such `total` and every `P` with `1 ≤ P`, the per-rank intervals
`[get_start(total,P,r), get_end(total,P,r))` are contiguous, and every index
`i < total` lies in the interval of exactly one rank `r < P`; this covers
`total < P` (empty ranks) and `total` not divisible by `P`. -/
theorem claim_c4_partition_geometry (total P : ℕ) (hT : total ≤ 2 ^ 53) (hP : 1 ≤ P) :
    (∀ r : ℕ, get_end total P r = get_start total P (r + 1)) ∧
    ∀ i : ℕ, i < total → ∃! r : ℕ, r < P ∧
      get_start total P r ≤ (i : ℤ) ∧ (i : ℤ) < get_end total P r := by
  constructor
  · intro r
    rw [get_end, get_start]
    congr 1
  · intro i hi
    have ht1 : 1 ≤ total := by omega
    have hc1 : 1 ≤ div_chunk total P := div_chunk_pos total P ht1 hP
    have hcv : (total : ℤ) ≤ P * div_chunk total P := div_chunk_cover total P hT hP
    set c : ℤ := div_chunk total P with hcdef
    set cn : ℕ := c.toNat with hcndef
    have hcnc : (cn : ℤ) = c := Int.toNat_of_nonneg (by linarith)
    have hcn1 : 1 ≤ cn := by omega
    have hcovn : total ≤ P * cn := by
      have hz : (total : ℤ) ≤ (P : ℤ) * cn := by rw [hcnc]; exact hcv
      exact_mod_cast hz
    set r0 : ℕ := min (P - 1) (i / cn) with hr0def
    have hr0P : r0 < P := by
      have := min_le_left (P - 1) (i / cn)
      omega
    have hstart : get_start total P r0 ≤ (i : ℤ) := by
      rw [get_start]
      apply le_trans (min_le_right _ _)
      have hn : r0 * cn ≤ i := by
        calc r0 * cn ≤ (i / cn) * cn := Nat.mul_le_mul_right cn (min_le_right _ _)
          _ ≤ i := Nat.div_mul_le_self i cn
      calc (r0 : ℤ) * c = ((r0 * cn : ℕ) : ℤ) := by rw [← hcnc]; push_cast; ring
        _ ≤ (i : ℤ) := by exact_mod_cast hn
    have hend : (i : ℤ) < get_end total P r0 := by
      rw [get_end]
      apply lt_min
      · exact_mod_cast hi
      · have hn : i < (r0 + 1) * cn := by
          rcases le_total (P - 1) (i / cn) with h | h
          · have hr0 : r0 = P - 1 := by rw [hr0def]; exact min_eq_left h
            have hP1 : (P - 1 + 1) = P := by omega
            rw [hr0, hP1]
            exact lt_of_lt_of_le hi hcovn
          · have hr0 : r0 = i / cn := by rw [hr0def]; exact min_eq_right h
            rw [hr0]
            have hd := Nat.lt_div_mul_add (show 0 < cn by omega) (a := i)
            calc i < i / cn * cn + cn := hd
              _ = (i / cn + 1) * cn := by ring
        calc (i : ℤ) < ((r0 + 1) * cn : ℕ) := by exact_mod_cast hn
          _ = ((r0 : ℤ) + 1) * c := by rw [← hcnc]; push_cast; ring
    have huniq : ∀ r1 r2 : ℕ, r1 < r2 →
        get_start total P r2 ≤ (i : ℤ) → (i : ℤ) < get_end total P r1 → False := by
      intro r1 r2 hlt h2 h1
      have hc0 : (0 : ℤ) ≤ c := by linarith
      have hmono : get_end total P r1 ≤ get_start total P r2 := by
        rw [get_end, get_start]
        apply min_le_min (le_refl _)
        have hr12 : ((r1 : ℤ) + 1) ≤ (r2 : ℤ) := by exact_mod_cast hlt
        exact mul_le_mul_of_nonneg_right hr12 hc0
      linarith
    refine ⟨r0, ⟨hr0P, hstart, hend⟩, ?_⟩
    rintro y ⟨hyP, hys, hye⟩
    rcases lt_trichotomy y r0 with h | h | h
    · exact (huniq y r0 h hstart hye).elim
    · exact h
    · exact (huniq r0 y h hys hend).elim

/-- Claim C4 counterexample: at `total = 2 ^ 55 + 1` and `P = 1` the claim as
stated (for all `total ≥ 0`) fails on the code: converting `total` to
`double` rounds it down to `2 ^ 55`, so rank 0 ends at `2 ^ 55` and the valid
index `2 ^ 55 < total` is owned by no rank — the union of the intervals is
not `[0, total)`. -/
theorem claim_c4_counterexample :
    ((2 ^ 55 : ℕ) : ℤ) < ((2 ^ 55 + 1 : ℕ) : ℤ) ∧
    ¬ ∃ r : ℕ, r < 1 ∧ get_start (2 ^ 55 + 1) 1 r ≤ ((2 ^ 55 : ℕ) : ℤ) ∧
      ((2 ^ 55 : ℕ) : ℤ) < get_end (2 ^ 55 + 1) 1 r := by
  constructor
  · push_cast
  · rintro ⟨r, hr, hs, he⟩
    have hr0 : r = 0 := by omega
    subst hr0
    rw [get_end_pow55] at he
    have hcon : ((2 ^ 55 : ℕ) : ℤ) < 2 ^ 55 := he
    push_cast at hcon

/-- Claim C4 witness: the amended partition-geometry theorem applied at the
concrete input `total = 6`, `P = 4` of the worked example. -/
theorem claim_c4_witness :
    (6 : ℕ) ≤ 2 ^ 53 ∧ (1 : ℕ) ≤ 4 ∧
    ((∀ r : ℕ, get_end 6 4 r = get_start 6 4 (r + 1)) ∧
     ∀ i : ℕ, i < 6 → ∃! r : ℕ, r < 4 ∧
       get_start 6 4 r ≤ (i : ℤ) ∧ (i : ℤ) < get_end 6 4 r) :=
  ⟨by norm_num, by norm_num, claim_c4_partition_geometry 6 4 (by norm_num) (by norm_num)⟩

/-- Claim C5 (amended: restricted to `total` at most `2 ^ 53`, where the
double-precision ceiling is exact, and `P` at most `2 ^ 53`, which is
automatic for a 32-bit `num_pes`): `get_start` equals
`min(total, r * ceil(total / P))` with the exact integer ceiling, `get_end`
equals `min(total, (r + 1) * ceil(total / P))`, and `get_node_portion` is
their difference. -/
theorem claim_c5_partition_contract (total P r : ℕ) (hT : total ≤ 2 ^ 53)
    (hP : 1 ≤ P) (hP2 : P ≤ 2 ^ 53) :
    get_start total P r = get_start_spec total P r ∧
    get_end total P r = get_end_spec total P r ∧
    get_node_portion total P r = get_end total P r - get_start total P r := by
  have hd : div_chunk total P = (spec_ceil_div total P : ℤ) := by
    rw [div_chunk_eq_exact total P hT hP hP2, spec_ceil_div_eq total P hP]
  refine ⟨?_, ?_, rfl⟩
  · rw [get_start, get_start_spec, hd]
  · rw [get_end, get_end_spec, hd]

/-- Claim C5 counterexample: at `total = 2 ^ 55 + 1`, `P = 1`, `r = 0` the
code end index is `2 ^ 55` (the int64-to-double conversion rounds `total`
down before the ceiling is taken) while the exact-arithmetic contract value
is `min(total, 1 * ceil(total / 1)) = total = 2 ^ 55 + 1`. -/
theorem claim_c5_counterexample :
    get_end (2 ^ 55 + 1) 1 0 = 2 ^ 55 ∧
    get_end_spec (2 ^ 55 + 1) 1 0 = 2 ^ 55 + 1 ∧
    ¬ get_end (2 ^ 55 + 1) 1 0 = get_end_spec (2 ^ 55 + 1) 1 0 := by
  have h2 : get_end_spec (2 ^ 55 + 1) 1 0 = 2 ^ 55 + 1 := by
    rw [get_end_spec, spec_ceil_div]
    norm_num
  refine ⟨get_end_pow55, h2, ?_⟩
  rw [get_end_pow55, h2]
  norm_num

/-- Claim C5 witness: the amended contract theorem applied at the concrete
input `total = 6`, `P = 4`, `r = 1` of the worked example. -/
theorem claim_c5_witness :
    (6 : ℕ) ≤ 2 ^ 53 ∧ (1 : ℕ) ≤ 4 ∧ (4 : ℕ) ≤ 2 ^ 53 ∧
    (get_start 6 4 1 = get_start_spec 6 4 1 ∧
     get_end 6 4 1 = get_end_spec 6 4 1 ∧
     get_node_portion 6 4 1 = get_end 6 4 1 - get_start 6 4 1) :=
  ⟨by norm_num, by norm_num, by norm_num,
    claim_c5_partition_contract 6 4 1 (by norm_num) (by norm_num) (by norm_num)⟩

/-- Position of the first occurrence of `k` in a list, scanning left to
right: models `std::find(keys2.begin(), keys2.end(), k)` followed by
`index = p - keys2.begin()` in `local_join_impl` (main.cpp). -/
def findIdx2 (k : Int) : List Int → Option Nat
  | [] => none
  | x :: xs => if x = k then some 0 else (findIdx2 k xs).map (fun j => j + 1)

/-- Model of `local_join_impl` (main.cpp, lines 27-49): for each build key of
`keys1` in order, linearly scan `keys2` for the first equal key; on a hit
push that key (`*p`, equal to the build key) and the payloads `data0[index]`
and `data1[index]` onto the three result columns.  The C++ code indexes
`data0[index]` and `data1[index]` with no bounds check, so a probe key column
longer than a payload column makes it read out of bounds — undefined
behaviour, modelled by returning `none`. -/
def local_join_impl : List Int → List Int → List ℚ → List Int →
    Option (List Int × List ℚ × List Int)
  | [], _, _, _ => some ([], [], [])
  | k :: ks, keys2, data0, data1 =>
    match findIdx2 k keys2 with
    | none => local_join_impl ks keys2 data0 data1
    | some index =>
      match data0.get? index, data1.get? index,
          local_join_impl ks keys2 data0 data1 with
      | some a, some b, some (kr, d0r, d1r) => some (k :: kr, a :: d0r, b :: d1r)
      | _, _, _ => none

/-- Model of `parallel_join_impl` (main.cpp, lines 66-70): its whole body is
`return local_join_impl(keys1, keys2, data0, data1)` — no routing, no
shuffle, no collective operation. -/
def parallel_join_impl (keys1 keys2 : List Int) (data0 : List ℚ) (data1 : List Int) :
    Option (List Int × List ℚ × List Int) :=
  local_join_impl keys1 keys2 data0 data1

/-- Global build keys of the worked example (`keys1_global` in helpers.cpp). -/
def keys1_global : List Int := [0, 1, 1, 2, 1, 0]

/-- Global probe keys of the worked example (`keys2_global` in helpers.cpp). -/
def keys2_global : List Int := [1, 0, 4, 2, 5, 3]

/-- Global payload_a column of the worked example (`data0_global`,
double values 1.0 .. 6.0 carried exactly). -/
def data0_global : List ℚ := [1, 2, 3, 4, 5, 6]

/-- Global payload_b column of the worked example (`data1_global`). -/
def data1_global : List Int := [4, 1, 2, 3, 0, 5]

/-- Sub-range `[s, e)` of a list, as built by the iterator-pair vector
construction `{v.begin() + start, v.begin() + end}` in
`generate_example_inputs`. -/
def sliceRange {α : Type} (l : List α) (s e : ℤ) : List α :=
  (l.drop s.toNat).take (e - s).toNat

/-- Model of `generate_example_inputs` (helpers.cpp, lines 219-230): each
rank receives the `[get_start, get_end)` slice of every global column, with
the probe-side columns sliced by the probe table size. -/
def generate_example_inputs (rank n_pes : ℕ) :
    List Int × List Int × List ℚ × List Int :=
  (sliceRange keys1_global (get_start keys1_global.length n_pes rank)
      (get_end keys1_global.length n_pes rank),
   sliceRange keys2_global (get_start keys2_global.length n_pes rank)
      (get_end keys2_global.length n_pes rank),
   sliceRange data0_global (get_start keys2_global.length n_pes rank)
      (get_end keys2_global.length n_pes rank),
   sliceRange data1_global (get_start keys2_global.length n_pes rank)
      (get_end keys2_global.length n_pes rank))

/-- Row view of a columnar output chunk (key, payload_a, payload_b). -/
def rows (t : List Int × List ℚ × List Int) : List (Int × ℚ × Int) :=
  t.1.zip (t.2.1.zip t.2.2)

/-- Outputs of the per-rank joins of a run on the worked example, gathered
over the given rank list; `none` if any rank hits undefined behaviour. -/
def global_rows (P : ℕ) : List ℕ → Option (List (Int × ℚ × Int))
  | [] => some []
  | r :: rs =>
    match parallel_join_impl (generate_example_inputs r P).1
        (generate_example_inputs r P).2.1 (generate_example_inputs r P).2.2.1
        (generate_example_inputs r P).2.2.2, global_rows P rs with
    | some t, some rest => some (rows t ++ rest)
    | _, _ => none

/-- Global output-row list of a run of the worked example on `P` ranks. -/
def example_global (P : ℕ) : Option (List (Int × ℚ × Int)) :=
  global_rows P (List.range P)

theorem div_chunk_6_1 : div_chunk 6 1 = 6 := by
  rw [div_chunk_eq_exact 6 1 (by norm_num) (by norm_num) (by norm_num),
    spec_ceil_div_eq 6 1 (by norm_num)]
  norm_num [spec_ceil_div]

theorem div_chunk_6_2 : div_chunk 6 2 = 3 := by
  rw [div_chunk_eq_exact 6 2 (by norm_num) (by norm_num) (by norm_num),
    spec_ceil_div_eq 6 2 (by norm_num)]
  norm_num [spec_ceil_div]

theorem gs_6_1_0 : get_start 6 1 0 = 0 := by
  rw [get_start, div_chunk_6_1]
  omega

theorem ge_6_1_0 : get_end 6 1 0 = 6 := by
  rw [get_end, div_chunk_6_1]
  omega

theorem gs_6_2_0 : get_start 6 2 0 = 0 := by
  rw [get_start, div_chunk_6_2]
  omega

theorem ge_6_2_0 : get_end 6 2 0 = 3 := by
  rw [get_end, div_chunk_6_2]
  omega

theorem gs_6_2_1 : get_start 6 2 1 = 3 := by
  rw [get_start, div_chunk_6_2]
  omega

theorem ge_6_2_1 : get_end 6 2 1 = 6 := by
  rw [get_end, div_chunk_6_2]
  omega

theorem gei_1_0 : generate_example_inputs 0 1 =
    ([0, 1, 1, 2, 1, 0], [1, 0, 4, 2, 5, 3], [1, 2, 3, 4, 5, 6], [4, 1, 2, 3, 0, 5]) := by
  unfold generate_example_inputs
  rw [show keys1_global.length = 6 from rfl, show keys2_global.length = 6 from rfl]
  rw [gs_6_1_0, ge_6_1_0]
  rfl

theorem gei_2_0 : generate_example_inputs 0 2 =
    ([0, 1, 1], [1, 0, 4], [1, 2, 3], [4, 1, 2]) := by
  unfold generate_example_inputs
  rw [show keys1_global.length = 6 from rfl, show keys2_global.length = 6 from rfl]
  rw [gs_6_2_0, ge_6_2_0]
  rfl

theorem gei_2_1 : generate_example_inputs 1 2 =
    ([2, 1, 0], [2, 5, 3], [4, 5, 6], [3, 0, 5]) := by
  unfold generate_example_inputs
  rw [show keys1_global.length = 6 from rfl, show keys2_global.length = 6 from rfl]
  rw [gs_6_2_1, ge_6_2_1]
  rfl

theorem example_global_1_eval : example_global 1 =
    some [(0, 2, 1), (1, 1, 4), (1, 1, 4), (2, 4, 3), (1, 1, 4), (0, 2, 1)] := by
  rw [example_global, show List.range 1 = [0] from rfl]
  simp only [global_rows]
  rw [gei_1_0]
  rfl

theorem example_global_2_eval : example_global 2 =
    some [(0, 2, 1), (1, 1, 4), (1, 1, 4), (2, 4, 3)] := by
  rw [example_global, show List.range 2 = [0, 1] from rfl]
  simp only [global_rows]
  rw [gei_2_0, gei_2_1]
  rfl

theorem local_join_nil_probe (keys1 : List Int) (d0 : List ℚ) (d1 : List Int) :
    local_join_impl keys1 [] d0 d1 = some ([], [], []) := by
  induction keys1 with
  | nil => rfl
  | cons k ks ih =>
    rw [local_join_impl]
    simp only [findIdx2]
    exact ih

theorem findIdx2_mem (k : Int) : ∀ (l : List Int) (j : Nat), findIdx2 k l = some j → k ∈ l := by
  intro l
  induction l with
  | nil =>
    intro j h
    exact Option.noConfusion h
  | cons x xs ih =>
    intro j h
    rw [findIdx2] at h
    by_cases hx : x = k
    · subst hx
      exact List.mem_cons_self x xs
    · rw [if_neg hx] at h
      obtain ⟨j0, hj0, _⟩ := Option.map_eq_some'.mp h
      exact List.mem_cons_of_mem x (ih j0 hj0)

/-- Position `j` is the first occurrence of `k` in `l`: the key sits at index
`j` and at no earlier index. -/
def isFirstMatch (k : Int) (l : List Int) (j : Nat) : Prop :=
  l.get? j = some k ∧ ∀ i, i < j → l.get? i ≠ some k

theorem findIdx2_first (k : Int) :
    ∀ (l : List Int) (j : Nat), findIdx2 k l = some j → isFirstMatch k l j := by
  intro l
  induction l with
  | nil =>
    intro j h
    exact Option.noConfusion h
  | cons x xs ih =>
    intro j h
    rw [findIdx2] at h
    by_cases hx : x = k
    · rw [if_pos hx] at h
      obtain rfl : (0 : Nat) = j := Option.some.inj h
      subst hx
      constructor
      · rfl
      · intro i hi
        omega
    · rw [if_neg hx] at h
      obtain ⟨j0, hj0, hj1⟩ := Option.map_eq_some'.mp h
      obtain ⟨ih1, ih2⟩ := ih j0 hj0
      subst hj1
      constructor
      · simpa using ih1
      · intro i hi
        cases i with
        | zero =>
          simp only [List.get?]
          intro hc
          exact hx (Option.some.inj hc)
        | succ i0 =>
          simp only [List.get?]
          exact ih2 i0 (by omega)

/-- Claim C8: the three output columns returned by the join have equal
lengths — every successful run of `local_join_impl` pushes onto all three
result vectors together. -/
theorem claim_c8_output_lengths : ∀ (keys1 keys2 : List Int) (data0 : List ℚ)
    (data1 : List Int) (ks : List Int) (as0 : List ℚ) (bs : List Int),
    local_join_impl keys1 keys2 data0 data1 = some (ks, as0, bs) →
    ks.length = as0.length ∧ as0.length = bs.length := by
  intro keys1
  induction keys1 with
  | nil =>
    intro keys2 d0 d1 ks as0 bs h
    rw [local_join_impl] at h
    simp only [Option.some.injEq, Prod.mk.injEq] at h
    obtain ⟨rfl, rfl, rfl⟩ := h
    exact ⟨rfl, rfl⟩
  | cons k ks1 ih =>
    intro keys2 d0 d1 ks as0 bs h
    rw [local_join_impl] at h
    split at h
    · exact ih keys2 d0 d1 ks as0 bs h
    · split at h
      · rename_i index hfind a b kr d0r d1r hd0 hd1 hrec
        simp only [Option.some.injEq, Prod.mk.injEq] at h
        obtain ⟨rfl, rfl, rfl⟩ := h
        obtain ⟨iha, ihb⟩ := ih keys2 d0 d1 kr d0r d1r hrec
        constructor
        · simp [iha]
        · simp [ihb]
      · exact Option.noConfusion h

/-- Claim C8 witness: the length theorem applied at a concrete input. -/
theorem claim_c8_witness :
    local_join_impl [0, 1] [1, 0] [10, 20] [7, 8] = some ([0, 1], [20, 10], [8, 7]) ∧
    (([0, 1] : List Int).length = ([20, 10] : List ℚ).length ∧
     ([20, 10] : List ℚ).length = ([8, 7] : List Int).length) :=
  ⟨by decide, claim_c8_output_lengths [0, 1] [1, 0] [10, 20] [7, 8] [0, 1] [20, 10] [8, 7]
    (by decide)⟩

theorem join_keys_mem : ∀ (keys1 keys2 : List Int) (data0 : List ℚ) (data1 : List Int)
    (out : List Int × List ℚ × List Int),
    local_join_impl keys1 keys2 data0 data1 = some out →
    ∀ x ∈ out.1, x ∈ keys1 ∧ x ∈ keys2 := by
  intro keys1
  induction keys1 with
  | nil =>
    intro keys2 d0 d1 out h x hx
    rw [local_join_impl] at h
    obtain rfl : (([], [], []) : List Int × List ℚ × List Int) = out := Option.some.inj h
    simp at hx
  | cons k ks1 ih =>
    intro keys2 d0 d1 out h x hx
    rw [local_join_impl] at h
    split at h
    · obtain ⟨h1, h2⟩ := ih keys2 d0 d1 out h x hx
      exact ⟨List.mem_cons_of_mem k h1, h2⟩
    · rename_i index hfind
      split at h
      · rename_i a b kr d0r d1r hd0 hd1 hrec
        obtain rfl : (k :: kr, a :: d0r, b :: d1r) = out := Option.some.inj h
        rcases List.mem_cons.mp hx with rfl | hx1
        · exact ⟨List.mem_cons_self x ks1, findIdx2_mem x keys2 index hfind⟩
        · obtain ⟨h1, h2⟩ := ih keys2 d0 d1 (kr, d0r, d1r) hrec x hx1
          exact ⟨List.mem_cons_of_mem k h1, h2⟩
      · exact Option.noConfusion h

/-- Claim C9: `parallel_join_impl` returns exactly `local_join_impl` applied
to this rank's local chunks — the distributed join performs no routing, no
shuffle and no collective call — and consequently every emitted key is
present in both local key columns: a build/probe occurrence pair living on
different ranks can never produce a match. -/
theorem claim_c9_no_shuffle (keys1 keys2 : List Int) (data0 : List ℚ) (data1 : List Int) :
    parallel_join_impl keys1 keys2 data0 data1 = local_join_impl keys1 keys2 data0 data1 ∧
    ∀ out, parallel_join_impl keys1 keys2 data0 data1 = some out →
      ∀ x ∈ out.1, x ∈ keys1 ∧ x ∈ keys2 := by
  refine ⟨rfl, ?_⟩
  intro out h x hx
  exact join_keys_mem keys1 keys2 data0 data1 out h x hx

/-- Claim C9 witness: the theorem applied at a concrete one-rank input where
the key 1 is co-located. -/
theorem claim_c9_witness :
    (parallel_join_impl [1] [1] [5] [6] = local_join_impl [1] [1] [5] [6]) ∧
    ((1 : Int) ∈ ([1] : List Int) ∧ (1 : Int) ∈ ([1] : List Int)) :=
  ⟨(claim_c9_no_shuffle [1] [1] [5] [6]).1,
    (claim_c9_no_shuffle [1] [1] [5] [6]).2 ([1], [5], [6]) (by decide) 1 (by decide)⟩

/-- Row produced for one build key, following the loop body of
`local_join_impl`: the first probe index holding the key, then the two
payloads at that index; `none` when the key has no match or a payload read
would be out of bounds. -/
def joinRowSpec (keys2 : List Int) (data0 : List ℚ) (data1 : List Int) (k : Int) :
    Option (Int × ℚ × Int) :=
  match findIdx2 k keys2 with
  | none => none
  | some j =>
    match data0.get? j, data1.get? j with
    | some a, some b => some (k, a, b)
    | _, _ => none

/-- Claim C10: each build-side key occurrence emits at most one output row
(so the output is no longer than the build key column); the rows, read in
build order, are exactly the first-match rows of the build keys; and the
index `findIdx2` reports is the smallest probe index holding the key — so a
matched build key `keys1[i]` yields `(keys2[j], data0[j], data1[j])` for the
least `j` with `keys2[j] = keys1[i]`. -/
theorem claim_c10_first_match : ∀ (keys1 keys2 : List Int) (data0 : List ℚ)
    (data1 : List Int) (out : List Int × List ℚ × List Int),
    local_join_impl keys1 keys2 data0 data1 = some out →
    out.1.length ≤ keys1.length ∧
    rows out = keys1.filterMap (joinRowSpec keys2 data0 data1) ∧
    ∀ k j, findIdx2 k keys2 = some j → isFirstMatch k keys2 j := by
  intro keys1
  induction keys1 with
  | nil =>
    intro keys2 d0 d1 out h
    rw [local_join_impl] at h
    obtain rfl : (([], [], []) : List Int × List ℚ × List Int) = out := Option.some.inj h
    refine ⟨by simp, by simp [rows], ?_⟩
    intro k j hj
    exact findIdx2_first k keys2 j hj
  | cons k ks1 ih =>
    intro keys2 d0 d1 out h
    rw [local_join_impl] at h
    split at h
    · rename_i hfind
      obtain ⟨ih1, ih2, ih3⟩ := ih keys2 d0 d1 out h
      have hrow : joinRowSpec keys2 d0 d1 k = none := by
        simp only [joinRowSpec, hfind]
      have hfm : (k :: ks1).filterMap (joinRowSpec keys2 d0 d1) =
          ks1.filterMap (joinRowSpec keys2 d0 d1) := by
        simp [List.filterMap_cons, hrow]
      refine ⟨by simpa using Nat.le_succ_of_le ih1, ?_, ih3⟩
      rw [hfm, ih2]
    · rename_i index hfind
      split at h
      · rename_i a b kr d0r d1r hd0 hd1 hrec
        obtain rfl : (k :: kr, a :: d0r, b :: d1r) = out := Option.some.inj h
        obtain ⟨ih1, ih2, ih3⟩ := ih keys2 d0 d1 (kr, d0r, d1r) hrec
        have hrow : joinRowSpec keys2 d0 d1 k = some (k, a, b) := by
          simp only [joinRowSpec, hfind, hd0, hd1]
        have hfm : (k :: ks1).filterMap (joinRowSpec keys2 d0 d1) =
            (k, a, b) :: ks1.filterMap (joinRowSpec keys2 d0 d1) := by
          simp [List.filterMap_cons, hrow]
        have hzip : rows (k :: kr, a :: d0r, b :: d1r) = (k, a, b) :: rows (kr, d0r, d1r) := by
          simp [rows]
        refine ⟨by simpa using ih1, ?_, ih3⟩
        rw [hfm, hzip, ih2]
      · exact Option.noConfusion h

/-- Claim C10 witness: the theorem applied at the concrete input
keys1 = [7, 5], keys2 = [5, 5]: key 7 emits nothing, key 5 matches the
first probe occurrence only. -/
theorem claim_c10_witness :
    local_join_impl [7, 5] [5, 5] [1, 2] [3, 4] = some ([5], [1], [3]) ∧
    ((([5], [1], [3]) : List Int × List ℚ × List Int).1.length ≤ ([7, 5] : List Int).length ∧
     rows ([5], [1], [3]) = [7, 5].filterMap (joinRowSpec [5, 5] [1, 2] [3, 4]) ∧
     ∀ k j, findIdx2 k [5, 5] = some j → isFirstMatch k [5, 5] j) :=
  ⟨by decide, claim_c10_first_match [7, 5] [5, 5] [1, 2] [3, 4] ([5], [1], [3]) (by decide)⟩

/-- Claim C6: if the build key column is empty on every participant, or the
probe key column and both payload columns are empty on every participant,
then every participant's join output chunk is empty. -/
theorem claim_c6_empty_relation (chunks : List (List Int × List Int × List ℚ × List Int))
    (h : (∀ c ∈ chunks, c.1 = ([] : List Int)) ∨
      (∀ c ∈ chunks, c.2.1 = ([] : List Int) ∧ c.2.2.1 = ([] : List ℚ) ∧
        c.2.2.2 = ([] : List Int))) :
    ∀ c ∈ chunks, parallel_join_impl c.1 c.2.1 c.2.2.1 c.2.2.2 = some ([], [], []) := by
  intro c hc
  rcases h with h | h
  · rw [parallel_join_impl, h c hc]
    rfl
  · obtain ⟨h1, _, _⟩ := h c hc
    rw [parallel_join_impl, h1]
    exact local_join_nil_probe c.1 c.2.2.1 c.2.2.2

/-- Claim C6 witness: the theorem applied to a two-rank run whose probe
relation is empty everywhere while the build side is not. -/
theorem claim_c6_witness :
    (∀ c ∈ [(([3, 4], [], [], []) : List Int × List Int × List ℚ × List Int),
        (([7], [], [], []) : List Int × List Int × List ℚ × List Int)],
      c.2.1 = ([] : List Int) ∧ c.2.2.1 = ([] : List ℚ) ∧ c.2.2.2 = ([] : List Int)) ∧
    ∀ c ∈ [(([3, 4], [], [], []) : List Int × List Int × List ℚ × List Int),
        (([7], [], [], []) : List Int × List Int × List ℚ × List Int)],
      parallel_join_impl c.1 c.2.1 c.2.2.1 c.2.2.2 = some ([], [], []) :=
  ⟨by decide,
    claim_c6_empty_relation
      [(([3, 4], [], [], []) : List Int × List Int × List ℚ × List Int),
       (([7], [], [], []) : List Int × List Int × List ℚ × List Int)]
      (Or.inr (by decide))⟩

/-- Claim C1 evaluation at the failing input: build keys [5] (the key 5
occurs m = 1 time), probe keys [5, 5] (n = 2 times).  The m by n duplicate
semantics demands 1 * 2 = 2 output rows carrying key 5, but the code takes
only the first probe match per build key and emits exactly one row. -/
theorem claim_c1_eval :
    local_join_impl [5] [5, 5] [10, 20] [7, 8] = some ([5], [10], [7]) ∧
    ([5] : List Int).count 5 = 1 ∧ ([5, 5] : List Int).count 5 = 2 ∧
    ¬ ([5] : List Int).count 5 = 1 * 2 := by
  decide

/-- Claim C7 evaluation at the failing input: probe key column [1] is longer
than the payload columns (both empty) — a configuration error by the spec.
The join performs no validation and no rejection: it matches key 1 at probe
index 0 and then reads data0[0] and data1[0] out of bounds, which is the
modelled undefined behaviour (`none`), not a detected error. -/
theorem claim_c7_eval :
    ¬ ([1] : List Int).length = ([] : List ℚ).length ∧
    local_join_impl [1] [1] [] [] = none := by
  decide

/-- Claim C2 evaluation: the worked example run on P = 1 yields 6 output
rows globally, but on P = 2 it yields only 4 — the rows pairing build key 1
on rank 1 with its probe occurrence on rank 0, and build key 0 on rank 1
with its probe occurrence on rank 0, are lost because `parallel_join_impl`
never moves a row between ranks.  The global output multiset is not
partition independent. -/
theorem claim_c2_eval :
    example_global 1 =
      some [(0, 2, 1), (1, 1, 4), (1, 1, 4), (2, 4, 3), (1, 1, 4), (0, 2, 1)] ∧
    example_global 2 = some [(0, 2, 1), (1, 1, 4), (1, 1, 4), (2, 4, 3)] ∧
    ¬ (Multiset.ofList [(0, 2, 1), (1, 1, 4), (1, 1, 4), (2, 4, 3), (1, 1, 4), (0, 2, 1)] :
        Multiset (Int × ℚ × Int)) =
      Multiset.ofList [(0, 2, 1), (1, 1, 4), (1, 1, 4), (2, 4, 3)] :=
  ⟨example_global_1_eval, example_global_2_eval, by decide⟩

/-- Claim C3 evaluation: on a single participant the global output of the
worked example is exactly the claimed multiset (two copies of (0, 2.0, 1),
three of (1, 1.0, 4), one of (2, 4.0, 3), 6 rows in total), but already on
P = 2 participants the code emits only 4 rows globally, so the claimed
global multiset is not delivered by the distributed join. -/
theorem claim_c3_eval :
    (∃ L, example_global 1 = some L ∧
      (Multiset.ofList L : Multiset (Int × ℚ × Int)) =
        Multiset.ofList [(0, 2, 1), (0, 2, 1), (1, 1, 4), (1, 1, 4), (1, 1, 4), (2, 4, 3)] ∧
      L.length = 6) ∧
    ∃ L, example_global 2 = some L ∧ L.length = 4 :=
  ⟨⟨[(0, 2, 1), (1, 1, 4), (1, 1, 4), (2, 4, 3), (1, 1, 4), (0, 2, 1)],
      example_global_1_eval, by decide, by decide⟩,
    ⟨[(0, 2, 1), (1, 1, 4), (1, 1, 4), (2, 4, 3)], example_global_2_eval, by decide⟩⟩
